import Mathlib

/-!
Shallow embedding of the QuantMentor backtest core
(src/backtest_scaffold.py, src/backtest_scaffold_plus.py, src/sharpe_demo_plus.py).

Conventions of the embedding:
* A pandas Series of floats is a `List ℚ`; a series that may contain
  non-finite entries (NaN, the result of a `diff`/`shift` at the boundary,
  or of `np.log` on a non-positive price) is a `List (Option ℚ)` with
  `none` standing for "not a finite float".
* `fillna(0.0)` is `fillna0`, replacing `none` by `0`.
* `float` arithmetic is modelled exactly over `ℚ`; the two places where the
  source produces an irrational value (`math.sqrt(TRADING_DAYS)` and the
  square root inside `std(ddof=1)`) are modelled over `ℝ` with `Real.sqrt`.
* `np.log` never raises on a non-positive argument (it yields a non-finite
  float), so its value on positive arguments is an arbitrary parameter
  `L : ℚ → ℚ` of the embedding; no theorem below depends on it.
* `none` conflates NaN with ±inf.  The program's `fillna(0.0)` fills only
  NaN, while `fillna0` fills every `none`; the program can produce ±inf
  only from a zero price (`pct_change` dividing by it, `np.log(0)`), so
  every theorem about a filled column either assumes positive prices
  (making that branch unreachable) or concerns only definedness and
  error behavior.
-/

/-- TRADING_DAYS = 252 (src/backtest_scaffold_plus.py line 26). -/
def TRADING_DAYS : ℕ := 252

/-- The error channel the spec's design expects of the pipeline.  The
source code itself never raises either error inside the core (see
`compute_returns_from_price` below, which always returns `.ok`). -/
inductive PipelineError
  | invalidInput
  | schemaViolation
deriving DecidableEq

/-- Elementwise scan over consecutive pairs: `pairScan f a [x₀, x₁, …]`
is `[f a x₀, f x₀ x₁, …]`.  Backbone of the embeddings of pandas
`diff`, `pct_change` and `shift(1)`. -/
def pairScan (f : α → α → β) : α → List α → List β
  | _, [] => []
  | a, x :: xs => f a x :: pairScan f x xs

/-- A pandas one-step difference-style operation: the first element is
NaN (`none`), element `t ≥ 1` is `f xs[t-1] xs[t]`. -/
def seriesDiff (f : α → α → Option β) : List α → List (Option β)
  | [] => []
  | x :: xs => none :: pairScan f x xs

/-- One step of `pct_change`: `cur/prev - 1`.  When the previous price
is zero the program's float division yields ±inf (NaN for 0/0) — a
non-finite value, modelled as `none`.  Note the conflation: the program's
`fillna(0.0)` fills the 0/0 NaN but keeps ±inf, while `fillna0` fills
every `none`; theorems about the filled return column therefore carry a
positive-price hypothesis, under which this branch is unreachable. -/
def stepRet (prev cur : ℚ) : Option ℚ :=
  if prev = 0 then none else some (cur / prev - 1)

/-- `series.pct_change()`. -/
def pctChange (xs : List ℚ) : List (Option ℚ) :=
  seriesDiff stepRet xs

/-- One step of `np.log(series).diff()`: finite exactly when both prices
are positive, in which case it is `log cur - log prev` (`L` is the value
of `np.log` on positive arguments).  `np.log` of a non-positive float is
NaN (negative price) or `-inf` (zero price) — a non-finite value, not an
exception; both are modelled as `none`.  The program's `fillna(0.0)`
would fill the NaN but keep the `-inf`; no theorem below depends on the
filled value of an entry arising from a non-positive price. -/
def logStep (L : ℚ → ℚ) (prev cur : ℚ) : Option ℚ :=
  if 0 < prev ∧ 0 < cur then some (L cur - L prev) else none

/-- `np.log(series).diff()`. -/
def npLogDiff (L : ℚ → ℚ) (xs : List ℚ) : List (Option ℚ) :=
  seriesDiff (logStep L) xs

/-- `series.diff()`. -/
def diffSeries (xs : List ℚ) : List (Option ℚ) :=
  seriesDiff (fun a b => some (b - a)) xs

/-- `series.shift(1)`: NaN first, then the previous element. -/
def shift1 (l : List (Option ℚ)) : List (Option ℚ) :=
  seriesDiff (fun u _ => u) l

/-- `series.fillna(0.0)`. -/
def fillna0 (l : List (Option ℚ)) : List ℚ :=
  l.map (fun o => o.getD 0)

/-- compute_returns_from_price (src/backtest_scaffold_plus.py lines 28-33).
`np.log` does not raise on non-positive input, so the function always
returns `.ok`; the `Except` type records that the spec's design treats
this operation as fallible. -/
def compute_returns_from_price (L : ℚ → ℚ) (price : List ℚ) (use_log : Bool) :
    Except PipelineError (List (Option ℚ)) :=
  .ok (if use_log then npLogDiff L price else pctChange price)

/-- `(y_ret < 0).astype(int)`: NaN compares false, so `none ↦ 0`. -/
def ltZeroSig (o : Option ℚ) : ℚ :=
  match o with
  | some q => if q < 0 then 1 else 0
  | none => 0

/-- generate_signals (src/backtest_scaffold_plus.py lines 35-40): toy
signal, long today if yesterday's close-to-close return was negative. -/
def generate_signals (close : List ℚ) : List ℚ :=
  (shift1 (pctChange close)).map ltZeroSig

/-- `signal.shift(1).fillna(0.0)` — the lagged position series. -/
def positionSeries (sig : List ℚ) : List ℚ :=
  fillna0 (shift1 (sig.map some))

/-- `signal.diff().abs().fillna(0.0)` — the per-step flip indicator the
source charges fees on. -/
def signalFlips (sig : List ℚ) : List ℚ :=
  fillna0 ((diffSeries sig).map (Option.map (fun q => |q|)))

/-- The columns apply_strategy adds to the frame, plus the trade count it
returns. -/
structure StrategyOut where
  ret : List ℚ
  strategy_ret : List ℚ
  trade_count : ℤ
deriving DecidableEq

/-- apply_strategy (src/backtest_scaffold_plus.py lines 42-60).
`int(flips.sum())` truncates toward zero; the sum of absolute flips is
non-negative, where truncation and floor agree. -/
def apply_strategy (L : ℚ → ℚ) (sig : List ℚ) (price : List ℚ)
    (fee_bps : ℚ) (use_log : Bool) : Except PipelineError StrategyOut :=
  (compute_returns_from_price L price use_log).map fun retRaw =>
    let ret := fillna0 retRaw
    let pos := positionSeries sig
    let flips := signalFlips sig
    let fee := fee_bps / 10000
    { ret := ret
      strategy_ret :=
        List.zipWith (fun g f => g - f * fee) (List.zipWith (· * ·) pos ret) flips
      trade_count := ⌊flips.sum⌋ }

/-- `xs.mean()`: NaN on an empty sample. -/
def meanQ (xs : List ℚ) : Option ℚ :=
  if xs.length = 0 then none else some (xs.sum / xs.length)

/-- The square of `xs.std(ddof=1)` (Bessel-corrected sample variance);
NaN when fewer than two samples.  The source's `std` itself is
`Real.sqrt` of this (see `compute_summary_metrics`). -/
def sampleVar (xs : List ℚ) : Option ℚ :=
  if xs.length < 2 then none
  else some ((xs.map (fun x => (x - xs.sum / xs.length) ^ 2)).sum / ((xs.length : ℚ) - 1))

/-- annualize_vol (src/backtest_scaffold_plus.py lines 62-63). -/
noncomputable def annualize_vol (std_daily : ℝ) : ℝ :=
  std_daily * Real.sqrt TRADING_DAYS

/-- annualized_sharpe (src/backtest_scaffold_plus.py lines 65-68):
NaN when the std is zero, else `(mean/std) * sqrt(252)`. -/
noncomputable def annualized_sharpe (mean_daily std_daily : ℝ) : Option ℝ :=
  if std_daily = 0 then none
  else some ((mean_daily / std_daily) * Real.sqrt TRADING_DAYS)

/-- annualized_sortino (src/backtest_scaffold.py lines 120-123 of the
appended plus variant). -/
noncomputable def annualized_sortino (mean_daily downside_std_daily : ℝ) : Option ℝ :=
  if downside_std_daily = 0 then none
  else some ((mean_daily / downside_std_daily) * Real.sqrt TRADING_DAYS)

/-- Cumulative product with accumulator, `cumprodAux a [x₀,…]` =
`[a*x₀, a*x₀*x₁, …]`. -/
def cumprodAux (a : ℚ) : List ℚ → List ℚ
  | [] => []
  | x :: xs => (a * x) :: cumprodAux (a * x) xs

/-- `series.cumprod()`. -/
def cumprod (l : List ℚ) : List ℚ :=
  cumprodAux 1 l

/-- Running maximum with accumulator. -/
def cummaxAux (a : ℚ) : List ℚ → List ℚ
  | [] => []
  | x :: xs => max a x :: cummaxAux (max a x) xs

/-- `series.cummax()`. -/
def cummax : List ℚ → List ℚ
  | [] => []
  | x :: xs => x :: cummaxAux x xs

/-- `series.min()` with pandas `skipna=True`: the minimum of the defined
entries, NaN when none are defined (or the series is empty). -/
def minDefined (l : List (Option ℚ)) : Option ℚ :=
  match l.filterMap id with
  | [] => none
  | x :: xs => some (xs.foldl min x)

/-- `(1.0 + ret.fillna(0.0)).cumprod()` — the equity curve inside
max_drawdown_from_returns. -/
def equityCurve (ret : List (Option ℚ)) : List ℚ :=
  cumprod ((fillna0 ret).map (fun r => 1 + r))

/-- max_drawdown_from_returns (src/backtest_scaffold_plus.py lines 70-75).
An entry of `eq / peak` at which the running peak is exactly zero is
non-finite in float arithmetic and is modelled as `none`; no input in the
theorems below reaches that case. -/
def max_drawdown_from_returns (ret : List (Option ℚ)) : Option ℚ :=
  let eqc := equityCurve ret
  let peak := cummax eqc
  let dd := List.zipWith (fun e p => if p = 0 then none else some (e / p - 1)) eqc peak
  minDefined dd

/-- rolling(window, min_periods=window) aggregation: element `t` is
`f` of the window of `w` samples ending at `t`, defined once `t+1 ≥ w`
(the input carries no NaN, so min_periods counts plain length);
pandas requires `window ≥ 1`. -/
def rollingApply (f : List ℚ → Option ℚ) (xs : List ℚ) (w : ℕ) : List (Option ℚ) :=
  (List.range xs.length).map fun t =>
    if 1 ≤ w ∧ w ≤ t + 1 then f ((xs.drop (t + 1 - w)).take w) else none

/-- rolling_sharpe_annualized (src/backtest_scaffold_plus.py lines 77-81):
rolling mean over rolling std (std = square root of the Bessel-corrected
rolling variance), times sqrt(252).  The float quotient `m / s` is
non-finite when `s` is NaN (window incomplete or of size < 2) and also
when `s = 0` (`±inf` or NaN), so both cases are `none`. -/
noncomputable def rolling_sharpe_annualized (excess : List ℚ) (window : ℕ) :
    List (Option ℝ) :=
  List.zipWith
    (fun om ov =>
      match om, ov with
      | some m, some v =>
          if v = 0 then none
          else some (((m : ℝ) / Real.sqrt (v : ℝ)) * Real.sqrt TRADING_DAYS)
      | _, _ => none)
    (rollingApply meanQ excess window) (rollingApply sampleVar excess window)

/-- The record compute_summary_metrics returns (src/backtest_scaffold.py
lines 152-163 of the appended plus variant). -/
structure Summary where
  n : ℕ
  mean_daily_excess : Option ℚ
  std_daily_excess : Option ℝ
  downside_std_daily : Option ℝ
  vol_annualized : Option ℝ
  sharpe_annualized : Option ℝ
  sortino_annualized : Option ℝ
  max_drawdown : Option ℚ
  hit_rate : Option ℚ
  cumulative_return : Option ℚ

/-- compute_summary_metrics (src/backtest_scaffold.py lines 138-163 of
the appended plus variant).  `xs.std(ddof=1)` is the square root of
`sampleVar`; the source guards sharpe/sortino with `np.isnan(std)` only —
when the std is defined (n ≥ 2) the mean is defined as well, so matching
on both options agrees with the source's single guard.  `max_drawdown`
receives the already-dropna'd sample, re-wrapped in `some` to fit the
Option-typed series the function takes. -/
noncomputable def compute_summary_metrics (excess : List (Option ℚ)) : Summary :=
  let xs : List ℚ := excess.filterMap id
  let n := xs.length
  let mean_d : Option ℚ := meanQ xs
  let var_d : Option ℚ := sampleVar xs
  let std_d : Option ℝ := var_d.map (fun (v : ℚ) => Real.sqrt (v : ℝ))
  let downside := xs.filter (fun x => x < 0)
  let down_var : Option ℚ := if 1 < downside.length then sampleVar downside else none
  let down_std : Option ℝ := down_var.map (fun (v : ℚ) => Real.sqrt (v : ℝ))
  { n := n
    mean_daily_excess := mean_d
    std_daily_excess := std_d
    downside_std_daily := down_std
    vol_annualized := std_d.map annualize_vol
    sharpe_annualized :=
      match mean_d, std_d with
      | some m, some s => annualized_sharpe (m : ℝ) s
      | _, _ => none
    sortino_annualized :=
      match mean_d, down_std with
      | some m, some s => annualized_sortino (m : ℝ) s
      | _, _ => none
    max_drawdown := max_drawdown_from_returns (xs.map some)
    hit_rate := if n = 0 then none else some (((xs.filter (fun x => 0 < x)).length : ℚ) / n)
    cumulative_return := ((cumprod (xs.map (fun x => 1 + x))).getLast?).map (fun q => q - 1) }

/-- The pipeline of main() in src/backtest_scaffold_plus.py with
execution basis `close` and no risk-free column (`excess = strategy_ret`),
ending in the appended variant's compute_summary_metrics: signals from
close prices, lagged position, per-flip costs, then the metric summary. -/
noncomputable def run_pipeline (L : ℚ → ℚ) (price : List ℚ) (fee_bps : ℚ)
    (use_log : Bool) : Except PipelineError Summary :=
  (apply_strategy L (generate_signals price) price fee_bps use_log).map fun out =>
    compute_summary_metrics (out.strategy_ret.map some)

/-- A fixed instantiation of the `np.log`-value parameter, used to state
closed theorems; every fact proved about log mode holds for all `L`, and
none inspects this value. -/
def constLog : ℚ → ℚ := fun _ => 0

/-! ### Structural facts about the series operations -/

theorem pairScan_length (f : α → α → β) (a : α) (xs : List α) :
    (pairScan f a xs).length = xs.length := by
  induction xs generalizing a with
  | nil => rfl
  | cons x xs ih => simp [pairScan, ih]

theorem pairScan_getElem? (f : α → α → β) (a : α) (xs : List α) (t : ℕ) :
    (pairScan f a xs)[t]? =
      Option.map₂ f ((a :: xs)[t]?) (xs[t]?) := by
  induction xs generalizing a t with
  | nil => simp [pairScan]
  | cons x xs ih =>
      cases t with
      | zero => simp [pairScan]
      | succ t => simpa [pairScan] using ih x t

theorem seriesDiff_length (f : α → α → Option β) (xs : List α) :
    (seriesDiff f xs).length = xs.length := by
  cases xs with
  | nil => rfl
  | cons x xs => simp [seriesDiff, pairScan_length]

theorem seriesDiff_getElem?_zero (f : α → α → Option β) (xs : List α) (h : xs ≠ []) :
    (seriesDiff f xs)[0]? = some none := by
  cases xs with
  | nil => exact absurd rfl h
  | cons x xs => simp [seriesDiff]

theorem seriesDiff_getElem?_succ (f : α → α → Option β) (xs : List α) (t : ℕ) :
    (seriesDiff f xs)[t + 1]? =
      Option.map₂ f (xs[t]?) (xs[t + 1]?) := by
  cases xs with
  | nil => simp [seriesDiff]
  | cons x xs => simpa [seriesDiff] using pairScan_getElem? f x xs t

theorem fillna0_length (l : List (Option ℚ)) : (fillna0 l).length = l.length := by
  simp [fillna0]

theorem fillna0_getElem? (l : List (Option ℚ)) (t : ℕ) :
    (fillna0 l)[t]? = (l[t]?).map (fun o => o.getD 0) := by
  simp [fillna0]

theorem generate_signals_length (close : List ℚ) :
    (generate_signals close).length = close.length := by
  simp [generate_signals, seriesDiff_length, shift1, pctChange]

theorem positionSeries_length (sig : List ℚ) :
    (positionSeries sig).length = sig.length := by
  simp [positionSeries, fillna0_length, shift1, seriesDiff_length]

theorem positionSeries_getElem?_zero (sig : List ℚ) (h : sig ≠ []) :
    (positionSeries sig)[0]? = some 0 := by
  have h' : sig.map some ≠ [] := by simpa using h
  simp [positionSeries, fillna0_getElem?, shift1, seriesDiff_getElem?_zero _ _ h']

theorem positionSeries_getElem?_succ (sig : List ℚ) (t : ℕ) (h : t + 1 < sig.length) :
    (positionSeries sig)[t + 1]? = sig[t]? := by
  obtain ⟨u, hu⟩ : ∃ u, sig[t]? = some u :=
    ⟨_, List.getElem?_eq_getElem (Nat.lt_of_succ_lt h)⟩
  obtain ⟨v, hv⟩ : ∃ v, sig[t + 1]? = some v :=
    ⟨_, List.getElem?_eq_getElem h⟩
  simp [positionSeries, fillna0_getElem?, shift1, seriesDiff_getElem?_succ,
    List.getElem?_map, hu, hv, Option.map₂]

theorem signalFlips_length (sig : List ℚ) :
    (signalFlips sig).length = sig.length := by
  simp [signalFlips, fillna0_length, diffSeries, seriesDiff_length]

theorem signalFlips_getElem?_zero (sig : List ℚ) (h : sig ≠ []) :
    (signalFlips sig)[0]? = some 0 := by
  simp [signalFlips, fillna0_getElem?, List.getElem?_map,
    seriesDiff_getElem?_zero _ _ h, diffSeries]

theorem signalFlips_getElem?_succ (sig : List ℚ) (t : ℕ) (h : t + 1 < sig.length) :
    (signalFlips sig)[t + 1]? =
      some |sig.getD (t + 1) 0 - sig.getD t 0| := by
  obtain ⟨u, hu⟩ : ∃ u, sig[t]? = some u :=
    ⟨_, List.getElem?_eq_getElem (Nat.lt_of_succ_lt h)⟩
  obtain ⟨v, hv⟩ : ∃ v, sig[t + 1]? = some v :=
    ⟨_, List.getElem?_eq_getElem h⟩
  simp [signalFlips, fillna0_getElem?, List.getElem?_map, diffSeries,
    seriesDiff_getElem?_succ, hu, hv, Option.map₂, List.getD_eq_getElem?_getD]

theorem filterMap_id_map_some (l : List ℚ) : (l.map some).filterMap id = l := by
  induction l with
  | nil => rfl
  | cons x xs ih => simp [ih]

/-- The `signal.diff().abs().fillna(0.0)` column, written per index:
zero at `t = 0`, `|signal[t] - signal[t-1]|` afterwards. -/
theorem signalFlips_eq_map (sig : List ℚ) :
    signalFlips sig = (List.range sig.length).map
      (fun u => if u = 0 then 0 else |sig.getD u 0 - sig.getD (u - 1) 0|) := by
  apply List.ext_getElem?
  intro n
  by_cases hn : n < sig.length
  · rw [List.getElem?_map, List.getElem?_range hn]
    cases n with
    | zero =>
        have hne : sig ≠ [] := by
          intro h
          rw [h] at hn
          exact Nat.not_lt_zero 0 hn
        simp [signalFlips_getElem?_zero sig hne]
    | succ t =>
        rw [signalFlips_getElem?_succ sig t hn]
        simp
  · rw [List.getElem?_eq_none (by simpa [signalFlips_length] using Nat.le_of_not_lt hn),
      List.getElem?_eq_none (by simpa using Nat.le_of_not_lt hn)]

/-- apply_strategy, with its `Except.map` over the always-`.ok` return
computation discharged. -/
theorem apply_strategy_ok (L : ℚ → ℚ) (sig price : List ℚ) (fee_bps : ℚ) (use_log : Bool) :
    apply_strategy L sig price fee_bps use_log = .ok
      { ret := fillna0 (if use_log then npLogDiff L price else pctChange price)
        strategy_ret := List.zipWith (fun g f => g - f * (fee_bps / 10000))
          (List.zipWith (· * ·) (positionSeries sig)
            (fillna0 (if use_log then npLogDiff L price else pctChange price)))
          (signalFlips sig)
        trade_count := ⌊(signalFlips sig).sum⌋ } := rfl

/-- C9: for every input series, position[0] = 0 and position[t] = signal[t-1]
for every 1 ≤ t < length (the `signal.shift(1).fillna(0.0)` lagging of
src/backtest_scaffold_plus.py line 49). -/
theorem position_lag_spec (sig : List ℚ) (t : ℕ) (h0 : sig ≠ []) (h1 : 1 ≤ t)
    (ht : t < sig.length) :
    (positionSeries sig)[0]? = some 0 ∧ (positionSeries sig)[t]? = sig[t - 1]? := by
  refine ⟨positionSeries_getElem?_zero sig h0, ?_⟩
  obtain ⟨k, rfl⟩ := Nat.exists_eq_add_of_le' h1
  simpa using positionSeries_getElem?_succ sig k ht

/-- C9 witness: the lag at a concrete series. -/
theorem position_lag_spec_wit :
    (positionSeries [5, 7])[0]? = some 0 ∧ (positionSeries [5, 7])[1]? = [(5 : ℚ), 7][0]? :=
  position_lag_spec [5, 7] 1 (by decide) (by decide) (by decide)

/-- C2 counterexample: on price [100, 101, 99, 99, 105] the code's toy
signal is [0,0,0,1,0], not the claimed [0,0,0,1,1] — return[3] = 0 is not
`< 0`, so signal[4] = 0 (as the claim's own stated rule also demands). -/
theorem toy_scenario_signal_cex :
    generate_signals [100, 101, 99, 99, 105] = [0, 0, 0, 1, 0] ∧
    ([0, 0, 0, 1, 0] : List ℚ) ≠ [0, 0, 0, 1, 1] := by
  constructor
  · norm_num [generate_signals, shift1, pctChange, seriesDiff, pairScan, stepRet, ltZeroSig]
  · intro h
    have := List.getElem_of_eq h (by norm_num : 4 < ([0, 0, 0, 1, 0] : List ℚ).length)
    norm_num at this

/-- C2 (amended): scenario price = [100, 101, 99, 99, 105], fee_bps = 0,
simple returns, toy rule.  Exact outputs: raw returns
[undef, 1/100, -2/101, 0, 2/33] (matching the claimed rounded decimals to
within 1/10000), signal = [0, 0, 0, 1, 0] (not [0,0,0,1,1]: the final
signal is 0 because return[3] = 0), position = [0, 0, 0, 0, 1],
strategy_return = [0, 0, 0, 0, 2/33], cumulative_return = 2/33 ≈ 6.06%. -/
theorem toy_scenario_outputs :
    pctChange [100, 101, 99, 99, 105] =
      [none, some (1/100), some (-2/101), some 0, some (2/33)] ∧
    |(-2/101 : ℚ) - (-198/10000)| < 1/10000 ∧
    |(2/33 : ℚ) - 606/10000| < 1/10000 ∧
    generate_signals [100, 101, 99, 99, 105] = [0, 0, 0, 1, 0] ∧
    positionSeries (generate_signals [100, 101, 99, 99, 105]) = [0, 0, 0, 0, 1] ∧
    (apply_strategy constLog (generate_signals [100, 101, 99, 99, 105])
        [100, 101, 99, 99, 105] 0 false).map StrategyOut.strategy_ret =
      .ok [0, 0, 0, 0, 2/33] ∧
    (run_pipeline constLog [100, 101, 99, 99, 105] 0 false).map Summary.cumulative_return =
      .ok (some (2/33)) := by
  refine ⟨?_, by norm_num [abs], by norm_num [abs], ?_, ?_, ?_, ?_⟩
  · norm_num [pctChange, seriesDiff, pairScan, stepRet]
  · norm_num [generate_signals, shift1, pctChange, seriesDiff, pairScan, stepRet, ltZeroSig]
  · norm_num [positionSeries, generate_signals, shift1, pctChange, seriesDiff, pairScan,
      stepRet, ltZeroSig, fillna0]
  · norm_num [apply_strategy, compute_returns_from_price, generate_signals, shift1, pctChange,
      seriesDiff, pairScan, stepRet, ltZeroSig, fillna0, positionSeries, signalFlips,
      diffSeries, Except.map]
  · norm_num [run_pipeline, apply_strategy, compute_returns_from_price, generate_signals,
      shift1, pctChange, seriesDiff, pairScan, stepRet, ltZeroSig, fillna0, positionSeries,
      signalFlips, diffSeries, Except.map, compute_summary_metrics, cumprod, cumprodAux,
      List.filterMap_cons, id_eq]

/-- The flip series the claim (and the spec's CostModel) describes, taken
over the lagged *position* series: `|position[t] - position[t-1]|` with
flip[0] = 0.  Stated from the spec's words, for comparison with the code's
signal-based `signalFlips`. -/
def specPositionFlip (sig : List ℚ) (t : ℕ) : ℚ :=
  if t = 0 then 0
  else |(positionSeries sig).getD t 0 - (positionSeries sig).getD (t - 1) 0|

/-- The trade count the claim describes: the sum over the sample of the
position-based flips. -/
def specTradeCount (sig : List ℚ) : ℚ :=
  ((List.range sig.length).map (specPositionFlip sig)).sum

/-- C1 counterexample: price [100, 99, 101] with fee_bps = 10000
(fee_rate = 1).  The toy signal is [0, 0, 1]; the lagged position is
[0, 0, 0] and never changes, so the claimed trade count
Σ|position[t] - position[t-1]| is 0 and the claimed cost at t = 2 is 0.
The code instead diffs the *signal* column: it reports trade_count = 1 and
subtracts a full fee at t = 2, where strategy_ret = 0·ret[2] - 1 = -1. -/
theorem cost_on_signal_flip_cex :
    generate_signals [100, 99, 101] = [0, 0, 1] ∧
    positionSeries (generate_signals [100, 99, 101]) = [0, 0, 0] ∧
    specTradeCount (generate_signals [100, 99, 101]) = 0 ∧
    specPositionFlip (generate_signals [100, 99, 101]) 2 = 0 ∧
    (apply_strategy constLog (generate_signals [100, 99, 101]) [100, 99, 101] 10000
        false).map StrategyOut.trade_count = .ok 1 ∧
    (apply_strategy constLog (generate_signals [100, 99, 101]) [100, 99, 101] 10000
        false).map (fun o => o.strategy_ret[2]?) = .ok (some (-1 : ℚ)) := by
  have hsig : generate_signals [100, 99, 101] = [0, 0, 1] := by
    norm_num [generate_signals, shift1, pctChange, seriesDiff, pairScan, stepRet, ltZeroSig]
  have hpos : positionSeries ([0, 0, 1] : List ℚ) = [0, 0, 0] := by
    norm_num [positionSeries, shift1, seriesDiff, pairScan, fillna0]
  refine ⟨hsig, by rw [hsig]; exact hpos, ?_, ?_, ?_, ?_⟩
  · rw [specTradeCount, hsig]
    norm_num [specPositionFlip, hpos, List.range_succ]
  · rw [specPositionFlip, hsig, hpos]
    norm_num
  · rw [apply_strategy_ok, hsig]
    norm_num [signalFlips, diffSeries, seriesDiff, pairScan, fillna0, Except.map]
  · rw [apply_strategy_ok, hsig]
    norm_num [signalFlips, diffSeries, seriesDiff, pairScan, fillna0, Except.map,
      pctChange, stepRet, hpos]

/-- C1 (amended): the code charges costs on *signal* changes, not position
changes.  For every input, the per-step cost subtracted at time t equals
`|signal[t] - signal[t-1]| * (fee_bps/10000)` with flip[0] = 0, and
trade_count = Σ_t |signal[t] - signal[t-1]|; each flip is charged exactly
once.  For 1 ≤ t the signal flip at t equals the *position* flip at t+1:
the charge books one period before the lagged position changes (and a
signal flip on the last day is charged although its position change falls
outside the sample, while a nonzero signal[0] would move the position at
t = 1 without any charge). -/
theorem cost_model_signal_flips
    (L : ℚ → ℚ) (sig price : List ℚ) (fee_bps : ℚ) (use_log : Bool) (out : StrategyOut)
    (hout : apply_strategy L sig price fee_bps use_log = .ok out)
    (t : ℕ) (hts : t < sig.length) (htp : t < price.length) :
    out.strategy_ret[t]? =
      some ((positionSeries sig).getD t 0 * out.ret.getD t 0
        - (if t = 0 then 0 else |sig.getD t 0 - sig.getD (t - 1) 0|) * (fee_bps / 10000)) ∧
    out.trade_count =
      ⌊((List.range sig.length).map
          (fun u => if u = 0 then 0 else |sig.getD u 0 - sig.getD (u - 1) 0|)).sum⌋ ∧
    (1 ≤ t → t + 1 < sig.length →
      (if t = 0 then 0 else |sig.getD t 0 - sig.getD (t - 1) 0|)
        = specPositionFlip sig (t + 1)) := by
  have hpay := (apply_strategy_ok L sig price fee_bps use_log).symm.trans hout
  have hout2 := Except.ok.inj hpay
  subst hout2
  have hretlen :
      (fillna0 (if use_log then npLogDiff L price else pctChange price)).length
        = price.length := by
    cases use_log <;> simp [fillna0_length, npLogDiff, pctChange, seriesDiff_length]
  refine ⟨?_, ?_, ?_⟩
  · obtain ⟨pv, hpv⟩ : ∃ v, (positionSeries sig)[t]? = some v :=
      ⟨_, List.getElem?_eq_getElem (by rw [positionSeries_length]; exact hts)⟩
    obtain ⟨rv, hrv⟩ :
        ∃ v, (fillna0 (if use_log then npLogDiff L price else pctChange price))[t]? = some v :=
      ⟨_, List.getElem?_eq_getElem (by rw [hretlen]; exact htp)⟩
    have hfl : (signalFlips sig)[t]? =
        some (if t = 0 then 0 else |sig.getD t 0 - sig.getD (t - 1) 0|) := by
      rw [signalFlips_eq_map, List.getElem?_map, List.getElem?_range hts]
      rfl
    simp only [List.getElem?_zipWith, hpv, hrv, hfl, List.getD_eq_getElem?_getD,
      Option.getD_some]
  · rw [signalFlips_eq_map]
  · intro h1 h2
    obtain ⟨k, rfl⟩ := Nat.exists_eq_add_of_le' h1
    have e1 : (positionSeries sig)[k + 1 + 1]? = sig[k + 1]? :=
      positionSeries_getElem?_succ sig (k + 1) h2
    have e2 : (positionSeries sig)[k + 1]? = sig[k]? :=
      positionSeries_getElem?_succ sig k (Nat.lt_of_succ_lt h2)
    simp [specPositionFlip, List.getD_eq_getElem?_getD, e1, e2]

/-- C1 witness: the amended cost identities at signal [0, 1, 1],
price [100, 101, 102], fee_bps = 10000, t = 1. -/
theorem cost_model_signal_flips_wit :
    (StrategyOut.mk [0, 1/100, 1/101] [0, -1, 1/101] 1).strategy_ret[1]? =
      some ((positionSeries [0, 1, 1]).getD 1 0
        * (StrategyOut.mk ([0, 1/100, 1/101] : List ℚ) [0, -1, 1/101] 1).ret.getD 1 0
        - (if (1 : ℕ) = 0 then 0
           else |[(0 : ℚ), 1, 1].getD 1 0 - [(0 : ℚ), 1, 1].getD (1 - 1) 0|)
          * (10000 / 10000)) ∧
    (StrategyOut.mk ([0, 1/100, 1/101] : List ℚ) [0, -1, 1/101] 1).trade_count =
      ⌊((List.range ([(0 : ℚ), 1, 1].length)).map
          (fun u => if u = 0 then 0
            else |[(0 : ℚ), 1, 1].getD u 0 - [(0 : ℚ), 1, 1].getD (u - 1) 0|)).sum⌋ ∧
    (1 ≤ 1 → 1 + 1 < [(0 : ℚ), 1, 1].length →
      (if (1 : ℕ) = 0 then (0 : ℚ)
       else |[(0 : ℚ), 1, 1].getD 1 0 - [(0 : ℚ), 1, 1].getD (1 - 1) 0|)
        = specPositionFlip [0, 1, 1] (1 + 1)) :=
  cost_model_signal_flips constLog [0, 1, 1] [100, 101, 102] 10000 false
    (StrategyOut.mk [0, 1/100, 1/101] [0, -1, 1/101] 1)
    (by norm_num [apply_strategy, compute_returns_from_price, Except.map, fillna0,
      pctChange, seriesDiff, pairScan, stepRet, positionSeries, shift1, signalFlips,
      diffSeries])
    1 (by norm_num) (by norm_num)

/-- C3 counterexample: a negative price under log mode aborts nothing.
On price [100, -5] in log mode the return computation succeeds with both
entries undefined (np.log(-5) is NaN, not an exception), and the pipeline
still computes its metrics, with sample size 2. -/
theorem log_mode_nonpositive_cex :
    compute_returns_from_price constLog [100, -5] true = .ok [none, none] ∧
    (run_pipeline constLog [100, -5] 0 true).map Summary.n = .ok 2 := by
  constructor
  · norm_num [compute_returns_from_price, npLogDiff, seriesDiff, pairScan, logStep]
  · norm_num [run_pipeline, apply_strategy, compute_returns_from_price, generate_signals,
      shift1, pctChange, npLogDiff, seriesDiff, pairScan, stepRet, logStep, ltZeroSig,
      fillna0, positionSeries, signalFlips, diffSeries, Except.map, compute_summary_metrics,
      constLog, List.filterMap_cons, id_eq]

/-- C3 (amended): a non-positive price under log mode is not an error and
aborts nothing.  The return calculation always succeeds (np.log yields a
non-finite float, raising no exception), the return entry at the offending
index is not a finite value (NaN for a negative price, -inf for a zero
price, modelled alike as `none`), and the whole pipeline still runs and
produces a metric summary. -/
theorem log_mode_no_error (L : ℚ → ℚ) (price : List ℚ) (fee_bps : ℚ) (use_log : Bool)
    (t : ℕ) (ht : t < price.length) (hp : price.getD t 0 ≤ 0) :
    (compute_returns_from_price L price use_log).isOk = true ∧
    (run_pipeline L price fee_bps use_log).isOk = true ∧
    (npLogDiff L price)[t]? = some none := by
  refine ⟨rfl, rfl, ?_⟩
  cases t with
  | zero =>
      cases price with
      | nil => exact absurd ht (by simp)
      | cons x xs => simp [npLogDiff, seriesDiff]
  | succ k =>
      obtain ⟨u, hu⟩ : ∃ u, price[k]? = some u :=
        ⟨_, List.getElem?_eq_getElem (Nat.lt_of_succ_lt ht)⟩
      obtain ⟨v, hv⟩ : ∃ v, price[k + 1]? = some v :=
        ⟨_, List.getElem?_eq_getElem ht⟩
      have hv0 : v ≤ 0 := by
        have := hp
        rw [List.getD_eq_getElem?_getD, hv] at this
        simpa using this
      rw [npLogDiff, seriesDiff_getElem?_succ, hu, hv]
      simp [Option.map₂, logStep]
      intro h0u
      exact hv0

/-- C3 witness: the amended statement at price [100, -5], t = 1, log mode. -/
theorem log_mode_no_error_wit :
    (compute_returns_from_price constLog [100, -5] true).isOk = true ∧
    (run_pipeline constLog [100, -5] 0 true).isOk = true ∧
    (npLogDiff constLog [100, -5])[1]? = some none :=
  log_mode_no_error constLog [100, -5] 0 true 1 (by norm_num) (by norm_num)

/-- The sample size of the summary is the number of defined entries of
the excess series handed to it (`excess.dropna()`). -/
theorem compute_summary_metrics_n (excess : List (Option ℚ)) :
    (compute_summary_metrics excess).n = (excess.filterMap id).length := rfl

/-- C4 counterexample: on price [100, 101] the raw return series has an
undefined first entry, yet the pipeline's sample size is 2, not 1: the
undefined first return is filled with 0.0 inside apply_strategy before
the metrics engine sees the series, so the first period is counted. -/
theorem first_period_counted_cex :
    (pctChange [100, 101])[0]? = some none ∧
    (run_pipeline constLog [100, 101] 0 false).map Summary.n = .ok 2 := by
  constructor
  · norm_num [pctChange, seriesDiff]
  · norm_num [run_pipeline, apply_strategy, compute_returns_from_price, generate_signals,
      shift1, pctChange, seriesDiff, pairScan, stepRet, ltZeroSig, fillna0, positionSeries,
      signalFlips, diffSeries, Except.map, compute_summary_metrics, List.filterMap_cons,
      id_eq]

/-- The length of the filled return column equals the price series length
in both return modes. -/
theorem retColumn_length (L : ℚ → ℚ) (price : List ℚ) (use_log : Bool) :
    (fillna0 (if use_log then npLogDiff L price else pctChange price)).length
      = price.length := by
  cases use_log <;> simp [fillna0_length, npLogDiff, pctChange, seriesDiff_length]

/-- C4 (amended): for every price series of positive prices (the
PriceSeries invariant of the data model), the raw return series has an
undefined first entry, but apply_strategy replaces it with 0.0 before
composing the strategy return, so the excess series reaching the metrics
engine has no undefined entries and the effective sample size n equals
the full series length — the first period is included (as a zero return),
not excluded.  Positivity matters: a zero price makes the program's
pct_change yield ±inf, which fillna(0.0) does not fill and which becomes
NaN under 0·inf downstream and is then dropped, shrinking n (e.g. the
program gives n = 1 on price [0, 5]). -/
theorem sample_size_full_length (L : ℚ → ℚ) (price : List ℚ) (fee_bps : ℚ)
    (use_log : Bool) (h : price ≠ []) (hpos : ∀ x ∈ price, 0 < x) :
    (compute_returns_from_price L price use_log).map (fun l => l[0]?)
      = .ok (some none) ∧
    (run_pipeline L price fee_bps use_log).map Summary.n = .ok price.length := by
  constructor
  · cases use_log <;>
      simp [compute_returns_from_price, Except.map, npLogDiff, pctChange,
        seriesDiff_getElem?_zero _ _ h]
  · have hlen :
        (List.zipWith (fun g f => g - f * (fee_bps / 10000))
          (List.zipWith (· * ·) (positionSeries (generate_signals price))
            (fillna0 (if use_log then npLogDiff L price else pctChange price)))
          (signalFlips (generate_signals price))).length = price.length := by
      simp [List.length_zipWith, positionSeries_length, generate_signals_length,
        signalFlips_length, retColumn_length]
    rw [run_pipeline, apply_strategy_ok]
    simp only [Except.map]
    rw [compute_summary_metrics_n, filterMap_id_map_some, hlen]

/-- C4 witness: the amended statement at price [100, 101]. -/
theorem sample_size_full_length_wit :
    (compute_returns_from_price constLog [100, 101] false).map (fun l => l[0]?)
      = .ok (some none) ∧
    (run_pipeline constLog [100, 101] 0 false).map Summary.n
      = .ok ([(100 : ℚ), 101].length) :=
  sample_size_full_length constLog [100, 101] 0 false (by simp)
    (by
      intro x hx
      simp at hx
      rcases hx with rfl | rfl <;> norm_num)

/-- The sample variance is non-negative whenever it is defined. -/
theorem sampleVar_nonneg (xs : List ℚ) (v : ℚ) (h : sampleVar xs = some v) : 0 ≤ v := by
  rw [sampleVar] at h
  by_cases hlt : xs.length < 2
  · rw [if_pos hlt] at h
    exact absurd h (by simp)
  · rw [if_neg hlt] at h
    have hv := Option.some.inj h
    subst hv
    apply div_nonneg
    · exact List.sum_nonneg (by
        intro y hy
        obtain ⟨x, _, rfl⟩ := List.mem_map.mp hy
        positivity)
    · have h2 : 2 ≤ xs.length := Nat.le_of_not_lt hlt
      have : (2 : ℚ) ≤ (xs.length : ℚ) := by exact_mod_cast h2
      linarith

/-- A sample whose entries are all equal (and of size ≥ 2) has sample
variance zero. -/
theorem sampleVar_of_allEq (xs : List ℚ) (h2 : 2 ≤ xs.length)
    (hall : ∀ x ∈ xs, ∀ y ∈ xs, x = y) : sampleVar xs = some 0 := by
  obtain ⟨c, cs, rfl⟩ : ∃ c cs, xs = c :: cs := by
    cases xs with
    | nil => simp at h2
    | cons c cs => exact ⟨c, cs, rfl⟩
  have hc : ∀ x ∈ c :: cs, x = c := fun x hx =>
    hall x hx c (List.mem_cons_self c cs)
  have hsum : (c :: cs).sum = ((c :: cs).length : ℚ) * c := by
    rw [List.sum_eq_card_nsmul (c :: cs) c hc, nsmul_eq_mul]
  have hlen0 : ((c :: cs).length : ℚ) ≠ 0 := by
    have : (0 : ℚ) < ((c :: cs).length : ℚ) := by positivity
    exact ne_of_gt (by exact_mod_cast Nat.lt_of_lt_of_le Nat.zero_lt_two h2)
  have hmean : (c :: cs).sum / ((c :: cs).length : ℚ) = c := by
    rw [hsum, mul_div_assoc]
    field_simp
  rw [sampleVar, if_neg (Nat.not_lt.mpr h2)]
  congr 1
  have hz : ((c :: cs).map
      (fun x => (x - (c :: cs).sum / ((c :: cs).length : ℚ)) ^ 2)).sum = 0 := by
    apply List.sum_eq_zero
    intro y hy
    obtain ⟨x, hx, rfl⟩ := List.mem_map.mp hy
    rw [hmean, hc x hx]
    ring
  rw [hz, zero_div]

/-- The sharpe field of the summary, unfolded. -/
theorem compute_summary_metrics_sharpe (excess : List (Option ℚ)) :
    (compute_summary_metrics excess).sharpe_annualized =
      match meanQ (excess.filterMap id),
        (sampleVar (excess.filterMap id)).map (fun (v : ℚ) => Real.sqrt (v : ℝ)) with
      | some m, some s => annualized_sharpe (m : ℝ) s
      | _, _ => none := rfl

/-- C5: sharpe_annualized is `(mean/std) * sqrt(252)` where defined, and
is undefined exactly when the std is undefined (sample size < 2) or zero;
in particular it is undefined whenever all excess returns are identical. -/
theorem sharpe_undefined_iff (excess : List (Option ℚ)) :
    ((compute_summary_metrics excess).sharpe_annualized = none ↔
      (excess.filterMap id).length < 2 ∨ sampleVar (excess.filterMap id) = some 0) ∧
    ((∀ x ∈ excess.filterMap id, ∀ y ∈ excess.filterMap id, x = y) →
      (compute_summary_metrics excess).sharpe_annualized = none) ∧
    (∀ r, (compute_summary_metrics excess).sharpe_annualized = some r →
      ∃ m v, meanQ (excess.filterMap id) = some m ∧
        sampleVar (excess.filterMap id) = some v ∧
        r = ((m : ℝ) / Real.sqrt (v : ℝ)) * Real.sqrt TRADING_DAYS) := by
  set xs := excess.filterMap id with hxs
  have hiff : (compute_summary_metrics excess).sharpe_annualized = none ↔
      xs.length < 2 ∨ sampleVar xs = some 0 := by
    by_cases hlt : xs.length < 2
    · have hvnone : sampleVar xs = none := by rw [sampleVar, if_pos hlt]
      have hnone : (compute_summary_metrics excess).sharpe_annualized = none := by
        rw [compute_summary_metrics_sharpe, ← hxs, hvnone]
        cases meanQ xs <;> rfl
      simp [hnone, hlt]
    · have hm : meanQ xs = some (xs.sum / xs.length) := by
        rw [meanQ, if_neg (by omega)]
      have hv : sampleVar xs = some
          ((xs.map (fun x => (x - xs.sum / xs.length) ^ 2)).sum / ((xs.length : ℚ) - 1)) := by
        rw [sampleVar, if_neg hlt]
      set V := (xs.map (fun x => (x - xs.sum / xs.length) ^ 2)).sum / ((xs.length : ℚ) - 1)
        with hV
      have hVnn : (0 : ℝ) ≤ (V : ℝ) := by
        exact_mod_cast sampleVar_nonneg xs V hv
      have hsharpe : (compute_summary_metrics excess).sharpe_annualized =
          annualized_sharpe ((xs.sum / xs.length : ℚ) : ℝ) (Real.sqrt (V : ℝ)) := by
        rw [compute_summary_metrics_sharpe, ← hxs, hm, hv]
        rfl
      rw [hsharpe, annualized_sharpe]
      by_cases hs : Real.sqrt (V : ℝ) = 0
      · have hV0 : V = 0 := by
          have := (Real.sqrt_eq_zero hVnn).mp hs
          exact_mod_cast this
        simp [hs, hlt, hv, hV0]
      · have hV0 : ¬ V = 0 := by
          intro h0
          exact hs (by rw [h0]; simp)
        simp only [if_neg hs]
        simp only [iff_false, false_iff, reduceCtorEq, or_iff_right_iff_imp]
        push_neg
        refine ⟨Nat.le_of_not_lt hlt, ?_⟩
        intro h
        rw [hv] at h
        exact hV0 (Option.some.inj h)
  refine ⟨hiff, ?_, ?_⟩
  · intro hall
    by_cases hlt : xs.length < 2
    · exact hiff.mpr (Or.inl hlt)
    · exact hiff.mpr (Or.inr (sampleVar_of_allEq xs (Nat.le_of_not_lt hlt) hall))
  · intro r hr
    have hnn : ¬ ((compute_summary_metrics excess).sharpe_annualized = none) := by
      rw [hr]
      simp
    have hcases := (not_iff_not.mpr hiff).mp hnn
    push_neg at hcases
    obtain ⟨hlen, hvar⟩ := hcases
    have hm : meanQ xs = some (xs.sum / xs.length) := by
      rw [meanQ, if_neg (by omega)]
    have hv : sampleVar xs = some
        ((xs.map (fun x => (x - xs.sum / xs.length) ^ 2)).sum / ((xs.length : ℚ) - 1)) := by
      rw [sampleVar, if_neg (by omega)]
    set V := (xs.map (fun x => (x - xs.sum / xs.length) ^ 2)).sum / ((xs.length : ℚ) - 1)
      with hV
    have hsharpe : (compute_summary_metrics excess).sharpe_annualized =
        annualized_sharpe ((xs.sum / xs.length : ℚ) : ℝ) (Real.sqrt (V : ℝ)) := by
      rw [compute_summary_metrics_sharpe, ← hxs, hm, hv]
      rfl
    refine ⟨xs.sum / xs.length, V, hm, hv, ?_⟩
    rw [hsharpe, annualized_sharpe] at hr
    have hs : ¬ (Real.sqrt (V : ℝ) = 0) := by
      intro h0
      have hVnn : (0 : ℝ) ≤ (V : ℝ) := by
        exact_mod_cast sampleVar_nonneg xs V hv
      have : V = 0 := by
        have := (Real.sqrt_eq_zero hVnn).mp h0
        exact_mod_cast this
      exact hvar (by rw [hv, this])
    rw [if_neg hs] at hr
    exact (Option.some.inj hr).symm

/-- C5 witness: three identical excess returns leave sharpe undefined. -/
theorem sharpe_undefined_iff_wit :
    (compute_summary_metrics [some 1, some 1, some 1]).sharpe_annualized = none :=
  (sharpe_undefined_iff [some 1, some 1, some 1]).2.1 (by
    intro x hx y hy
    simp [List.filterMap_cons, id_eq] at hx hy
    rw [hx, hy])

/-- C8 counterexample: for the constant price series of length 10 the
claim says the std is undefined; the code's std is defined (it is 0.0):
the sample has n = 10 ≥ 2 entries, all equal, so `std(ddof=1)` = 0. -/
theorem constant_series_std_defined_cex :
    (run_pipeline constLog (List.replicate 10 100) 0 false).map
      (fun s => s.std_daily_excess.isSome) = .ok true := by
  norm_num [run_pipeline, apply_strategy, compute_returns_from_price, generate_signals,
    shift1, pctChange, seriesDiff, pairScan, stepRet, ltZeroSig, fillna0, positionSeries,
    signalFlips, diffSeries, Except.map, compute_summary_metrics, List.replicate,
    meanQ, sampleVar, List.filterMap_cons, id_eq]

/-- C8 (amended): for a constant price series of length 10 under simple
returns (fee 0), the filled return column is all zeros (the raw first
return is undefined and filled with 0), n = 10, mean = 0, std = 0
(defined, not undefined — n ≥ 2 and all samples equal), sharpe and
sortino are undefined, max_drawdown = 0, and hit_rate = 0.0 (defined). -/
theorem constant_series_metrics :
    (apply_strategy constLog (generate_signals (List.replicate 10 100))
        (List.replicate 10 100) 0 false).map StrategyOut.ret
      = .ok (List.replicate 10 0) ∧
    (run_pipeline constLog (List.replicate 10 100) 0 false).map
        (fun s => (s.n, s.mean_daily_excess, s.max_drawdown, s.hit_rate))
      = .ok (10, some 0, some 0, some 0) ∧
    (run_pipeline constLog (List.replicate 10 100) 0 false).map Summary.std_daily_excess
      = .ok (some 0) ∧
    (run_pipeline constLog (List.replicate 10 100) 0 false).map Summary.sharpe_annualized
      = .ok none ∧
    (run_pipeline constLog (List.replicate 10 100) 0 false).map Summary.sortino_annualized
      = .ok none := by
  refine ⟨?_, ?_, ?_, ?_, ?_⟩ <;>
    norm_num [run_pipeline, apply_strategy, compute_returns_from_price, generate_signals,
      shift1, pctChange, seriesDiff, pairScan, stepRet, ltZeroSig, fillna0, positionSeries,
      signalFlips, diffSeries, Except.map, compute_summary_metrics, List.replicate,
      meanQ, sampleVar, List.filterMap_cons, id_eq, Real.sqrt_zero, annualized_sharpe,
      annualized_sortino, max_drawdown_from_returns, equityCurve, cumprod, cumprodAux,
      cummax, cummaxAux, minDefined, Prod.ext_iff]

/-- C7: when the rolling window equals the whole series length (and the
series has no undefined entries), the single defined entry of the rolling
annualized-Sharpe series — its last — equals the whole-series
sharpe_annualized of the metrics engine, and every earlier entry is
undefined. -/
theorem rolling_full_window_eq_sharpe (xs : List ℚ) (hne : xs ≠ []) :
    (rolling_sharpe_annualized xs xs.length).getLast? =
      some ((compute_summary_metrics (xs.map some)).sharpe_annualized) ∧
    (∀ t, t + 1 < xs.length → (rolling_sharpe_annualized xs xs.length)[t]? = some none) := by
  have hn : xs.length ≠ 0 := by simpa using hne
  have hshape : rolling_sharpe_annualized xs xs.length =
      (List.range xs.length).map (fun t =>
        (fun om ov =>
          match om, ov with
          | some m, some v =>
              if v = 0 then none
              else some (((m : ℝ) / Real.sqrt (v : ℝ)) * Real.sqrt TRADING_DAYS)
          | _, _ => none)
        (if 1 ≤ xs.length ∧ xs.length ≤ t + 1
          then meanQ ((xs.drop (t + 1 - xs.length)).take xs.length) else none)
        (if 1 ≤ xs.length ∧ xs.length ≤ t + 1
          then sampleVar ((xs.drop (t + 1 - xs.length)).take xs.length) else none)) := by
    rw [rolling_sharpe_annualized, rollingApply, rollingApply, List.zipWith_map,
      List.zipWith_same]
  constructor
  · rw [hshape, List.getLast?_map, List.getLast?_range, if_neg hn]
    have hcond : 1 ≤ xs.length ∧ xs.length ≤ (xs.length - 1) + 1 :=
      ⟨Nat.one_le_iff_ne_zero.mpr hn, by omega⟩
    have hzero : (xs.length - 1) + 1 - xs.length = 0 := by omega
    have hslice : (xs.drop ((xs.length - 1) + 1 - xs.length)).take xs.length = xs := by
      rw [hzero, List.drop_zero, List.take_length]
    simp only [Option.map_some', if_pos hcond, hslice]
    rw [compute_summary_metrics_sharpe, filterMap_id_map_some]
    cases hm : meanQ xs with
    | none =>
        have : xs.length = 0 := by
          by_contra h0
          rw [meanQ, if_neg h0] at hm
          exact absurd hm (by simp)
        exact absurd this hn
    | some m =>
        cases hv : sampleVar xs with
        | none => rfl
        | some v =>
            have hVnn : (0 : ℝ) ≤ (v : ℝ) := by
              exact_mod_cast sampleVar_nonneg xs v hv
            simp only [Option.map_some']
            by_cases hv0 : v = 0
            · rw [if_pos hv0]
              have : Real.sqrt (v : ℝ) = 0 := by rw [hv0]; simp
              rw [annualized_sharpe, if_pos this]
            · rw [if_neg hv0]
              have hs : Real.sqrt (v : ℝ) ≠ 0 := by
                intro h0
                exact hv0 (by exact_mod_cast (Real.sqrt_eq_zero hVnn).mp h0)
              rw [annualized_sharpe, if_neg hs]
  · intro t ht
    rw [hshape, List.getElem?_map, List.getElem?_range (by omega)]
    have hcond : ¬ (1 ≤ xs.length ∧ xs.length ≤ t + 1) := by
      intro h
      omega
    simp only [Option.map_some', if_neg hcond]

/-- C7 witness: the identity on the two-element series [1, 2]. -/
theorem rolling_full_window_eq_sharpe_wit :
    (rolling_sharpe_annualized [1, 2] ([(1 : ℚ), 2].length)).getLast? =
      some ((compute_summary_metrics ([(1 : ℚ), 2].map some)).sharpe_annualized) ∧
    (∀ t, t + 1 < [(1 : ℚ), 2].length →
      (rolling_sharpe_annualized [1, 2] ([(1 : ℚ), 2].length))[t]? = some none) :=
  rolling_full_window_eq_sharpe [1, 2] (by simp)

/-- Folding `min` never exceeds the initial accumulator. -/
theorem foldl_min_le_init (s : List ℚ) (a : ℚ) : s.foldl min a ≤ a := by
  induction s generalizing a with
  | nil => simp
  | cons x s ih => exact le_trans (ih (min a x)) (min_le_left a x)

/-- Folding `min` never exceeds any list element. -/
theorem foldl_min_le_mem (s : List ℚ) (a y : ℚ) (hy : y ∈ s) : s.foldl min a ≤ y := by
  induction s generalizing a with
  | nil => simp at hy
  | cons x s ih =>
      rcases List.mem_cons.mp hy with rfl | hy'
      · exact le_trans (foldl_min_le_init s (min a y)) (min_le_right a y)
      · exact ih (min a x) hy'

/-- A lower bound of the accumulator and of every element bounds the fold. -/
theorem le_foldl_min (s : List ℚ) (a b : ℚ) (hb : b ≤ a) (hs : ∀ y ∈ s, b ≤ y) :
    b ≤ s.foldl min a := by
  induction s generalizing a with
  | nil => simpa using hb
  | cons x s ih =>
      exact ih (min a x) (le_min hb (hs x (List.mem_cons_self x s)))
        (fun y hy => hs y (List.mem_cons_of_mem x hy))

/-- A cumulative product of positive factors from a positive seed is
positive throughout. -/
theorem cumprodAux_pos (ys : List ℚ) (a : ℚ) (ha : 0 < a) (hys : ∀ y ∈ ys, 0 < y) :
    ∀ e ∈ cumprodAux a ys, 0 < e := by
  induction ys generalizing a with
  | nil => simp [cumprodAux]
  | cons y ys ih =>
      intro e he
      have hy : 0 < y := hys y (List.mem_cons_self y ys)
      rcases List.mem_cons.mp he with rfl | he'
      · positivity
      · exact ih (a * y) (by positivity) (fun z hz => hys z (List.mem_cons_of_mem y hz)) e he'

/-- The minimum over the defined entries of a list whose entries are all
defined and non-positive: it exists, is non-positive, and is zero exactly
when every entry is zero. -/
theorem minDefined_spec (l : List (Option ℚ)) (hne : l ≠ [])
    (hall : ∀ o ∈ l, ∃ q, o = some q ∧ q ≤ 0) :
    ∃ m, minDefined l = some m ∧ m ≤ 0 ∧ (m = 0 ↔ ∀ o ∈ l, o = some 0) := by
  have hmem : ∀ q ∈ l.filterMap id, q ≤ 0 := by
    intro q hq
    obtain ⟨o, ho, hoq⟩ := List.mem_filterMap.mp hq
    obtain ⟨q', hq', hq'0⟩ := hall o ho
    rw [hq'] at hoq
    exact (Option.some.inj hoq) ▸ hq'0
  obtain ⟨o₀, ho₀⟩ : ∃ o, o ∈ l := by
    cases l with
    | nil => exact absurd rfl hne
    | cons x xs => exact ⟨x, List.mem_cons_self x xs⟩
  obtain ⟨q₀, hq₀, _⟩ := hall o₀ ho₀
  have hq₀mem : q₀ ∈ l.filterMap id :=
    List.mem_filterMap.mpr ⟨o₀, ho₀, by rw [hq₀]; rfl⟩
  obtain ⟨q, qs, hfm⟩ : ∃ q qs, l.filterMap id = q :: qs := by
    cases hcase : l.filterMap id with
    | nil => rw [hcase] at hq₀mem; simp at hq₀mem
    | cons q qs => exact ⟨q, qs, rfl⟩
  have hmin : minDefined l = some (qs.foldl min q) := by
    rw [minDefined, hfm]
  refine ⟨qs.foldl min q, hmin, ?_, ?_⟩
  · exact le_trans (foldl_min_le_init qs q) (hmem q (by rw [hfm]; exact List.mem_cons_self q qs))
  · constructor
    · intro hm0 o ho
      obtain ⟨qo, hqo, hqo0⟩ := hall o ho
      have hqomem : qo ∈ l.filterMap id :=
        List.mem_filterMap.mpr ⟨o, ho, by rw [hqo]; rfl⟩
      have hle : qs.foldl min q ≤ qo := by
        rw [hfm] at hqomem
        rcases List.mem_cons.mp hqomem with rfl | hmem'
        · exact foldl_min_le_init qs qo
        · exact foldl_min_le_mem qs q qo hmem'
      rw [hqo]
      have : qo = 0 := le_antisymm hqo0 (hm0 ▸ hle)
      rw [this]
    · intro hz
      have hall0 : ∀ q' ∈ l.filterMap id, q' = 0 := by
        intro q' hq'
        obtain ⟨o, ho, hoq⟩ := List.mem_filterMap.mp hq'
        have := hz o ho
        rw [this] at hoq
        exact (Option.some.inj hoq).symm
      have hq0 : q = 0 := hall0 q (by rw [hfm]; exact List.mem_cons_self q qs)
      have hge : (0 : ℚ) ≤ qs.foldl min q :=
        le_foldl_min qs q 0 (le_of_eq hq0.symm)
          (fun y hy => le_of_eq (hall0 y (by rw [hfm]; exact List.mem_cons_of_mem q hy)).symm)
      have hle : qs.foldl min q ≤ 0 := hq0 ▸ foldl_min_le_init qs q
      exact le_antisymm hle hge

/-- The drawdown entries past the first, relative to a running peak seeded
at `p`: over positive equity values they are all defined and non-positive,
and all zero exactly when the equity path `p :: es` is non-decreasing. -/
theorem dd_zip_spec (es : List ℚ) (p : ℚ) (hp : 0 < p) (hes : ∀ e ∈ es, 0 < e) :
    (∀ o ∈ List.zipWith (fun e pk => if pk = 0 then none else some (e / pk - 1))
        es (cummaxAux p es), ∃ q, o = some q ∧ q ≤ 0) ∧
    ((∀ o ∈ List.zipWith (fun e pk => if pk = 0 then none else some (e / pk - 1))
        es (cummaxAux p es), o = some 0) ↔ List.Chain' (· ≤ ·) (p :: es)) := by
  induction es generalizing p with
  | nil => simp [cummaxAux]
  | cons e es ih =>
      have he : 0 < e := hes e (List.mem_cons_self e es)
      have hmax : 0 < max p e := lt_max_of_lt_left hp
      have hmaxne : max p e ≠ 0 := ne_of_gt hmax
      have hdiv : e / max p e ≤ 1 := (div_le_one hmax).mpr (le_max_right p e)
      obtain ⟨ih1, ih2⟩ := ih (max p e) hmax (fun z hz => hes z (List.mem_cons_of_mem e hz))
      rw [cummaxAux]
      constructor
      · intro o ho
        rcases List.mem_cons.mp (by simpa [List.zipWith] using ho) with rfl | ho'
        · exact ⟨e / max p e - 1, by rw [if_neg hmaxne], by linarith⟩
        · exact ih1 o ho'
      · have hhead : ((if max p e = 0 then none else some (e / max p e - 1)) = some 0)
            ↔ p ≤ e := by
          rw [if_neg hmaxne]
          constructor
          · intro h
            have h1 : e / max p e = 1 := by
              have := Option.some.inj h
              linarith
            have h2 : e = max p e := by
              rw [div_eq_one_iff_eq hmaxne] at h1
              exact h1
            by_contra hpe
            have hlt : e < p := lt_of_not_le hpe
            rw [max_eq_left (le_of_lt hlt)] at h2
            exact absurd h2 (ne_of_lt hlt)
          · intro hpe
            rw [max_eq_right hpe, div_self (ne_of_gt he)]
            simp
        constructor
        · intro hz
          have h1 : p ≤ e := hhead.mp (hz _ (by simp [List.zipWith]))
          have h2 : List.Chain' (· ≤ ·) (max p e :: es) :=
            ih2.mp (fun o ho => hz o (by simp [List.zipWith, ho]))
          rw [List.chain'_cons]
          refine ⟨h1, ?_⟩
          rw [max_eq_right h1] at h2
          exact h2
        · intro hc
          obtain ⟨h1, h2⟩ := List.chain'_cons.mp hc
          have h2' : List.Chain' (· ≤ ·) (max p e :: es) := by
            rw [max_eq_right h1]
            exact h2
          intro o ho
          rcases List.mem_cons.mp (by simpa [List.zipWith] using ho) with rfl | ho'
          · exact hhead.mpr h1
          · exact ih2.mpr h2' o ho'

/-- C6 counterexample: for the excess-return sample [-2, 1] the equity
curve is [-1, -2] — strictly decreasing — yet max_drawdown = 0: with the
first equity value negative, the running peak is negative and the
drawdown ratio eq/peak exceeds 1 on the way down, so the minimum stays at
its first value 0.  The claimed iff fails for samples with a return
≤ -1. -/
theorem drawdown_nonmonotone_cex :
    max_drawdown_from_returns [some (-2), some 1] = some 0 ∧
    equityCurve [some (-2), some 1] = [-1, -2] ∧
    ¬ List.Chain' (· ≤ ·) (equityCurve [some (-2), some 1]) := by
  refine ⟨?_, ?_, ?_⟩
  · norm_num [max_drawdown_from_returns, equityCurve, fillna0, cumprod, cumprodAux,
      cummax, cummaxAux, minDefined, List.filterMap_cons, id_eq]
  · norm_num [equityCurve, fillna0, cumprod, cumprodAux]
  · norm_num [equityCurve, fillna0, cumprod, cumprodAux, List.chain'_cons,
      List.chain'_singleton]

/-- C6 (amended): for every non-empty excess-return sample whose filled
entries all exceed -1 (equity stays positive — the regime every price-fed
run of the pipeline stays in), max_drawdown is defined, ≤ 0, and equals 0
iff the equity curve is non-decreasing. -/
theorem drawdown_nonpos_iff_monotone (ret : List (Option ℚ)) (hne : ret ≠ [])
    (hgt : ∀ r ∈ fillna0 ret, (-1 : ℚ) < r) :
    ∃ m, max_drawdown_from_returns ret = some m ∧ m ≤ 0 ∧
      (m = 0 ↔ List.Chain' (· ≤ ·) (equityCurve ret)) := by
  set ys := (fillna0 ret).map (fun r => 1 + r) with hys
  have hyspos : ∀ y ∈ ys, 0 < y := by
    intro y hy
    obtain ⟨r, hr, rfl⟩ := List.mem_map.mp hy
    have := hgt r hr
    linarith
  have hysne : ys ≠ [] := by
    intro h
    rw [hys] at h
    exact hne (by simpa [fillna0] using (List.map_eq_nil_iff.mp h))
  have heqc : equityCurve ret = cumprod ys := by
    rw [equityCurve, hys]
  cases hysc : ys with
  | nil => exact absurd hysc hysne
  | cons y ys' =>
      have hy : 0 < y := by
        have := hyspos y
        rw [hysc] at this
        exact this (List.mem_cons_self y ys')
      have he0 : 0 < 1 * y := by linarith
      have he0ne : (1 : ℚ) * y ≠ 0 := ne_of_gt he0
      have hespos : ∀ e ∈ cumprodAux (1 * y) ys', 0 < e := by
        apply cumprodAux_pos ys' (1 * y) he0
        intro z hz
        have := hyspos z
        rw [hysc] at this
        exact this (List.mem_cons_of_mem y hz)
      have heq2 : equityCurve ret = (1 * y) :: cumprodAux (1 * y) ys' := by
        rw [heqc, hysc, cumprod, cumprodAux]
      have hdd : max_drawdown_from_returns ret =
          minDefined ((if (1 : ℚ) * y = 0 then none else some (1 * y / (1 * y) - 1)) ::
            List.zipWith (fun e pk => if pk = 0 then none else some (e / pk - 1))
              (cumprodAux (1 * y) ys') (cummaxAux (1 * y) (cumprodAux (1 * y) ys'))) := by
        simp only [max_drawdown_from_returns, heq2, cummax, List.zipWith]
      have hhead : (if (1 : ℚ) * y = 0 then none else some (1 * y / (1 * y) - 1)) = some 0 := by
        rw [if_neg he0ne, div_self he0ne]
        simp
      obtain ⟨hz1, hz2⟩ := dd_zip_spec (cumprodAux (1 * y) ys') (1 * y) he0 hespos
      have hall : ∀ o ∈ ((if (1 : ℚ) * y = 0 then none else some (1 * y / (1 * y) - 1)) ::
          List.zipWith (fun e pk => if pk = 0 then none else some (e / pk - 1))
            (cumprodAux (1 * y) ys') (cummaxAux (1 * y) (cumprodAux (1 * y) ys'))),
          ∃ q, o = some q ∧ q ≤ 0 := by
        intro o ho
        rcases List.mem_cons.mp ho with rfl | ho'
        · exact ⟨0, hhead, le_refl 0⟩
        · exact hz1 o ho'
      obtain ⟨m, hm, hm0, hmiff⟩ := minDefined_spec _ (List.cons_ne_nil _ _) hall
      refine ⟨m, by rw [hdd]; exact hm, hm0, ?_⟩
      rw [hmiff, heq2, List.forall_mem_cons]
      constructor
      · intro ⟨_, htail⟩
        exact hz2.mp htail
      · intro hc
        exact ⟨hhead, hz2.mpr hc⟩

/-- C6 witness: the amended statement at the one-element sample [1/2]. -/
theorem drawdown_nonpos_iff_monotone_wit :
    ∃ m, max_drawdown_from_returns [some (1/2)] = some m ∧ m ≤ 0 ∧
      (m = 0 ↔ List.Chain' (· ≤ ·) (equityCurve [some (1/2)])) :=
  drawdown_nonpos_iff_monotone [some (1/2)] (by simp) (by
    intro r hr
    simp [fillna0] at hr
    rw [hr]
    norm_num)

/-- Two inputs of equal length that agree up to index t produce
seriesDiff outputs that agree up to index t. -/
theorem seriesDiff_congrAt (f : α → α → Option β) (p q : List α) (t : ℕ)
    (hlen : p.length = q.length) (hag : ∀ u, u ≤ t → p[u]? = q[u]?) :
    ∀ u, u ≤ t → (seriesDiff f p)[u]? = (seriesDiff f q)[u]? := by
  intro u hu
  cases u with
  | zero =>
      by_cases hp : p = []
      · have hq : q = [] := by
          rw [← List.length_eq_zero, ← hlen, hp]
          rfl
        rw [hp, hq]
      · have hq : q ≠ [] := by
          intro h
          rw [← List.length_eq_zero, hlen, h] at hp
          exact hp rfl
        rw [seriesDiff_getElem?_zero f p hp, seriesDiff_getElem?_zero f q hq]
  | succ v =>
      rw [seriesDiff_getElem?_succ, seriesDiff_getElem?_succ,
        hag v (Nat.le_of_succ_le hu), hag (v + 1) hu]

/-- Pointwise agreement up to t is preserved by `map`. -/
theorem map_congrAt (f : α → β) (p q : List α) (t : ℕ)
    (hag : ∀ u, u ≤ t → p[u]? = q[u]?) :
    ∀ u, u ≤ t → (p.map f)[u]? = (q.map f)[u]? := by
  intro u hu
  rw [List.getElem?_map, List.getElem?_map, hag u hu]

/-- The toy signal at indices ≤ t depends only on prices at indices ≤ t. -/
theorem generate_signals_congrAt (p q : List ℚ) (t : ℕ) (hlen : p.length = q.length)
    (hag : ∀ u, u ≤ t → p[u]? = q[u]?) :
    ∀ u, u ≤ t → (generate_signals p)[u]? = (generate_signals q)[u]? := by
  have h1 := seriesDiff_congrAt stepRet p q t hlen hag
  have hlen1 : (pctChange p).length = (pctChange q).length := by
    simp [pctChange, seriesDiff_length, hlen]
  have h2 := seriesDiff_congrAt (fun u _ => u) (pctChange p) (pctChange q) t hlen1 h1
  exact map_congrAt ltZeroSig _ _ t h2

/-- The lagged position at indices ≤ t depends only on signals at
indices ≤ t. -/
theorem positionSeries_congrAt (s s' : List ℚ) (t : ℕ) (hlen : s.length = s'.length)
    (hag : ∀ u, u ≤ t → s[u]? = s'[u]?) :
    ∀ u, u ≤ t → (positionSeries s)[u]? = (positionSeries s')[u]? := by
  have h1 := map_congrAt some s s' t hag
  have hlen1 : (s.map some).length = (s'.map some).length := by simp [hlen]
  have h2 := seriesDiff_congrAt (fun u _ => u) (s.map some) (s'.map some) t hlen1 h1
  exact map_congrAt (fun o => o.getD 0) _ _ t h2

/-- The flip column at indices ≤ t depends only on signals at indices ≤ t. -/
theorem signalFlips_congrAt (s s' : List ℚ) (t : ℕ) (hlen : s.length = s'.length)
    (hag : ∀ u, u ≤ t → s[u]? = s'[u]?) :
    ∀ u, u ≤ t → (signalFlips s)[u]? = (signalFlips s')[u]? := by
  have h1 := seriesDiff_congrAt (fun a b => some (b - a)) s s' t hlen hag
  have h2 := map_congrAt (Option.map (fun q => |q|)) _ _ t h1
  exact map_congrAt (fun o => o.getD 0) _ _ t h2

/-- C10 (no-lookahead, two-run noninterference): two price series of equal
length that agree at every index u ≤ t produce the same signal, position
and strategy return at t, in either return mode and for any fee — prices
strictly after t never influence the outputs at t. -/
theorem no_lookahead_noninterference (L : ℚ → ℚ) (p q : List ℚ) (fee_bps : ℚ)
    (use_log : Bool) (t : ℕ) (hlen : p.length = q.length)
    (hag : ∀ u, u ≤ t → p[u]? = q[u]?) :
    (generate_signals p)[t]? = (generate_signals q)[t]? ∧
    (positionSeries (generate_signals p))[t]? = (positionSeries (generate_signals q))[t]? ∧
    (apply_strategy L (generate_signals p) p fee_bps use_log).map
        (fun o => o.strategy_ret[t]?) =
      (apply_strategy L (generate_signals q) q fee_bps use_log).map
        (fun o => o.strategy_ret[t]?) := by
  have hsig := generate_signals_congrAt p q t hlen hag
  have hsiglen : (generate_signals p).length = (generate_signals q).length := by
    simp [generate_signals_length, hlen]
  have hpos := positionSeries_congrAt _ _ t hsiglen hsig
  have hflip := signalFlips_congrAt _ _ t hsiglen hsig
  have hret : ∀ u, u ≤ t →
      (fillna0 (if use_log then npLogDiff L p else pctChange p))[u]? =
      (fillna0 (if use_log then npLogDiff L q else pctChange q))[u]? := by
    intro u hu
    cases use_log with
    | false =>
        simp only [Bool.false_eq_true, if_false]
        exact map_congrAt (fun o => o.getD 0) _ _ t
          (seriesDiff_congrAt stepRet p q t hlen hag) u hu
    | true =>
        simp only [if_true]
        exact map_congrAt (fun o => o.getD 0) _ _ t
          (seriesDiff_congrAt (logStep L) p q t hlen hag) u hu
  refine ⟨hsig t le_rfl, hpos t le_rfl, ?_⟩
  rw [apply_strategy_ok, apply_strategy_ok]
  simp only [Except.map]
  congr 1
  simp only [List.getElem?_zipWith, hpos t le_rfl, hret t le_rfl, hflip t le_rfl]

/-- C10 witness: two price series that differ only after t = 1 give the
same signal, position and strategy return at t = 1. -/
theorem no_lookahead_noninterference_wit :
    (generate_signals [1, 2, 3])[1]? = (generate_signals [1, 2, 100])[1]? ∧
    (positionSeries (generate_signals [1, 2, 3]))[1]? =
      (positionSeries (generate_signals [1, 2, 100]))[1]? ∧
    (apply_strategy constLog (generate_signals [1, 2, 3]) [1, 2, 3] 1 false).map
        (fun o => o.strategy_ret[1]?) =
      (apply_strategy constLog (generate_signals [1, 2, 100]) [1, 2, 100] 1 false).map
        (fun o => o.strategy_ret[1]?) :=
  no_lookahead_noninterference constLog [1, 2, 3] [1, 2, 100] 1 false 1 (by simp)
    (by
      intro u hu
      interval_cases u <;> rfl)
